import Mathlib

/-!
Verification of the grid-traversal core of `src/util.rs`: the 8-direction
compass model, bounds-checked neighbor lookup, the lazy `Surrounding`
iterator, and stack-based `flood_fill`.

Embedding conventions:
* a Rust `&[Vec<T>]` grid is a `List (List α)`;
* Rust `isize` arithmetic is `Int` (the values involved are tiny, far from
  any overflow boundary, so plain integers are the faithful model);
* Rust indexing `plane[r][c]`, which panics when out of bounds, is modelled
  by the `Option`-valued `cellAt?`; panicking entry points therefore return
  `none` exactly where the Rust code would panic;
* the `tracing::trace!` calls are non-functional instrumentation (they are
  lazily evaluated and carry no semantic contract) and are not modelled.
-/

/-- The eight compass directions, exactly the Rust `enum Direction`. -/
inductive Direction where
  | NW | N | NE | W | E | SW | S | SE
deriving DecidableEq, Repr, Fintype

namespace Direction

/-- The constant `Direction::ALL`, in its source order. -/
def ALL : List Direction := [NW, N, NE, W, E, SW, S, SE]

/-- The constant `Direction::CARDINAL`, in its source order. -/
def CARDINAL : List Direction := [N, S, E, W]

/-- `Direction::to_offset`: the `(row_offset, col_offset)` table. -/
def to_offset : Direction → Int × Int
  | NW => (-1, -1)
  | N => (-1, 0)
  | NE => (-1, 1)
  | W => (0, -1)
  | E => (0, 1)
  | SW => (1, -1)
  | S => (1, 0)
  | SE => (1, 1)

/-- `Direction::right_90`: the clockwise-rotation table. -/
def right_90 : Direction → Direction
  | NW => NE
  | N => E
  | NE => SE
  | W => N
  | E => S
  | SW => NW
  | S => W
  | SE => SW

end Direction

/-- Length of row `r` of the grid (0 for a nonexistent row). -/
def rowLen (plane : List (List α)) (r : Nat) : Nat :=
  (plane.getD r []).length

/-- `in_bounds_2d`. The Rust body is
`(0 <= row && row < plane.len()) && (0 <= col && col < plane[row].len())`;
`&&` short-circuits, so `plane[row]` is indexed only under a proof that the
row check passed — the `dite` reproduces exactly that access discipline. -/
def in_bounds_2d (plane : List (List α)) (row col : Int) : Bool :=
  if h : 0 ≤ row ∧ row < (plane.length : Int) then
    decide (0 ≤ col) &&
      decide (col < ((plane.get ⟨row.toNat, by omega⟩).length : Int))
  else
    false

/-- Validity of a (nonneg) coordinate for a grid, the invariant of spec §3. -/
def validCoord (plane : List (List α)) (r c : Nat) : Prop :=
  r < plane.length ∧ c < rowLen plane r

instance (plane : List (List α)) (r c : Nat) : Decidable (validCoord plane r c) := by
  unfold validCoord; infer_instance

/-- Grid cell lookup; `some` exactly when `plane[r][c]` would not panic. -/
def cellAt? (plane : List (List α)) (r c : Nat) : Option α :=
  (plane.get? r).bind fun rw => rw.get? c

theorem in_bounds_2d_iff (plane : List (List α)) (row col : Int) :
    in_bounds_2d plane row col = true ↔
      (0 ≤ row ∧ 0 ≤ col ∧ validCoord plane row.toNat col.toNat) := by
  unfold in_bounds_2d validCoord rowLen
  split
  · rename_i h
    have hr : row.toNat < plane.length := by omega
    have : plane.getD row.toNat [] = plane.get ⟨row.toNat, hr⟩ := by
      rw [List.getD_eq_getElem?_getD, List.getElem?_eq_getElem hr]
      rfl
    simp only [this, Bool.and_eq_true, decide_eq_true_eq]
    omega
  · rename_i h
    simp only [Bool.false_eq_true, false_iff]
    omega

theorem in_bounds_2d_shortcircuit (plane : List (List α)) (row col : Int)
    (h : ¬(0 ≤ row ∧ row < (plane.length : Int))) :
    in_bounds_2d plane row col = false := by
  unfold in_bounds_2d
  simp [h]

theorem cellAt?_isSome_iff (plane : List (List α)) (r c : Nat) :
    (cellAt? plane r c).isSome = true ↔ validCoord plane r c := by
  unfold cellAt? validCoord rowLen
  rcases h : plane.get? r with _ | rw
  · rw [List.get?_eq_none] at h
    simp only [Option.bind, Option.isSome_none, Bool.false_eq_true, false_iff]
    intro hcon
    omega
  · have hr : r < plane.length := by
      by_contra hcon
      rw [List.get?_eq_none.mpr (by omega)] at h
      exact Option.noConfusion h
    have hgd : plane.getD r [] = rw := by
      rw [List.getD_eq_getElem?_getD, ← List.get?_eq_getElem?, h]
      rfl
    simp only [Option.bind, hgd]
    rw [Option.isSome_iff_exists]
    constructor
    · rintro ⟨v, hv⟩
      have := List.get?_eq_some.mp hv
      exact ⟨hr, this.1⟩
    · rintro ⟨-, hc⟩
      rcases List.get?_eq_some.mpr ⟨hc, rfl⟩ with hv
      exact ⟨rw.get ⟨c, hc⟩, hv⟩

namespace Direction

/-- `Direction::apply_index`: offset the coordinate, keep it only when in
bounds and the offset is not `(0, 0)`. The Rust locals `off_row`/`off_col`
are written out inline. -/
def apply_index (d : Direction) (plane : List (List α)) (row col : Nat) :
    Option (Nat × Nat) :=
  if in_bounds_2d plane ((row : Int) + d.to_offset.1) ((col : Int) + d.to_offset.2) &&
      !(d.to_offset.1 == 0 && d.to_offset.2 == 0) then
    some (((row : Int) + d.to_offset.1).toNat, ((col : Int) + d.to_offset.2).toNat)
  else
    none

/-- `Direction::apply`: `apply_index` then dereference the cell. -/
def apply (d : Direction) (plane : List (List α)) (row col : Nat) : Option α :=
  (d.apply_index plane row col).bind fun rc => cellAt? plane rc.1 rc.2

end Direction

theorem to_offset_ne_zero (d : Direction) : d.to_offset ≠ (0, 0) := by
  cases d <;> decide

theorem apply_index_eq_some (d : Direction) (plane : List (List α)) (row col : Nat)
    (p : Nat × Nat) :
    d.apply_index plane row col = some p ↔
      (0 ≤ (row : Int) + d.to_offset.1 ∧ 0 ≤ (col : Int) + d.to_offset.2 ∧
        validCoord plane ((row : Int) + d.to_offset.1).toNat
          ((col : Int) + d.to_offset.2).toNat ∧
        p = (((row : Int) + d.to_offset.1).toNat, ((col : Int) + d.to_offset.2).toNat)) := by
  unfold Direction.apply_index
  have hnz : ¬(d.to_offset.1 == 0 && d.to_offset.2 == 0) = true := by
    intro hcon
    apply to_offset_ne_zero d
    simp only [Bool.and_eq_true, beq_iff_eq] at hcon
    exact Prod.ext hcon.1 hcon.2
  split
  · rename_i hcond
    simp only [Bool.and_eq_true, Bool.not_eq_eq_eq_not, Bool.not_true] at hcond
    rw [in_bounds_2d_iff] at hcond
    simp only [Option.some.injEq]
    constructor
    · rintro rfl
      exact ⟨hcond.1.1, hcond.1.2.1, hcond.1.2.2, rfl⟩
    · rintro ⟨-, -, -, rfl⟩
      rfl
  · rename_i hcond
    simp only [Bool.and_eq_true, Bool.not_eq_eq_eq_not, Bool.not_true, not_and] at hcond
    constructor
    · rintro ⟨⟩
    · rintro ⟨h1, h2, h3, rfl⟩
      exfalso
      have : in_bounds_2d plane ((row : Int) + d.to_offset.1) ((col : Int) + d.to_offset.2) = true := by
        rw [in_bounds_2d_iff]
        exact ⟨h1, h2, h3⟩
      have := hcond this
      simp only [Bool.not_eq_false] at this
      exact hnz this

theorem apply_index_valid (d : Direction) (plane : List (List α)) (row col : Nat)
    (p : Nat × Nat) (h : d.apply_index plane row col = some p) :
    validCoord plane p.1 p.2 := by
  rcases (apply_index_eq_some d plane row col p).mp h with ⟨-, -, hv, rfl⟩
  exact hv

theorem apply_index_cellAt (d : Direction) (plane : List (List α)) (row col : Nat)
    (p : Nat × Nat) (h : d.apply_index plane row col = some p) :
    ∃ v, cellAt? plane p.1 p.2 = some v := by
  have := (cellAt?_isSome_iff plane p.1 p.2).mpr (apply_index_valid d plane row col p h)
  rcases Option.isSome_iff_exists.mp this with ⟨v, hv⟩
  exact ⟨v, hv⟩

/-- State of the Rust `Surrounding` iterator: the grid, the direction set,
the index of the next direction to try, and the origin coordinate. -/
structure Surrounding (α : Type _) where
  plane : List (List α)
  dirs : List Direction
  dir : Nat
  row : Nat
  col : Nat

/-- `Surrounding::next`. The Rust method returns `Option<Item>` and mutates
`self`; here the successor state is returned alongside the item. On an
out-of-bounds direction the Rust code recurses into `self.next()` after the
increment, reproduced literally. In the source the yielded cell is the
direct index `plane[off_row][off_col]`; the `none` arm of the inner match is
unreachable (`apply_index_cellAt`), so the `Option` lookup is faithful. -/
def Surrounding.next (s : Surrounding α) :
    Option ((α × Nat × Nat × Direction) × Surrounding α) :=
  if h : s.dir < s.dirs.length then
    match (s.dirs.get ⟨s.dir, h⟩).apply_index s.plane s.row s.col with
    | some rc =>
      match cellAt? s.plane rc.1 rc.2 with
      | some v =>
        some ((v, rc.1, rc.2, s.dirs.get ⟨s.dir, h⟩), { s with dir := s.dir + 1 })
      | none => Surrounding.next { s with dir := s.dir + 1 }
    | none => Surrounding.next { s with dir := s.dir + 1 }
  else
    none
termination_by s.dirs.length - s.dir
decreasing_by
  all_goals simp_wf
  all_goals omega

theorem Surrounding.next_state (s : Surrounding α) (it : α × Nat × Nat × Direction)
    (s' : Surrounding α) (h : s.next = some (it, s')) :
    s.dir < s.dirs.length ∧ s'.dirs = s.dirs ∧ s.dir < s'.dir ∧
      s'.plane = s.plane ∧ s'.row = s.row ∧ s'.col = s.col := by
  generalize hn : s.dirs.length - s.dir = n
  induction n using Nat.strong_induction_on generalizing s with
  | _ n ih =>
    rw [Surrounding.next] at h
    split at h
    · rename_i hlt
      split at h
      · split at h
        · rename_i v hv
          simp only [Option.some.injEq, Prod.mk.injEq] at h
          rcases h with ⟨-, rfl⟩
          exact ⟨hlt, rfl, Nat.lt_succ_self s.dir, rfl, rfl, rfl⟩
        · have hrec := ih (s.dirs.length - (s.dir + 1)) (by omega)
            { s with dir := s.dir + 1 } h rfl
          have h1 : s'.dirs = s.dirs := hrec.2.1
          have h2 : s.dir + 1 < s'.dir := hrec.2.2.1
          exact ⟨hlt, h1, by omega, hrec.2.2.2⟩
      · have hrec := ih (s.dirs.length - (s.dir + 1)) (by omega)
          { s with dir := s.dir + 1 } h rfl
        have h1 : s'.dirs = s.dirs := hrec.2.1
        have h2 : s.dir + 1 < s'.dir := hrec.2.2.1
        exact ⟨hlt, h1, by omega, hrec.2.2.2⟩
    · exact absurd h (by simp)

/-- Exhaust the iterator: the list of items a Rust `for` loop over the
`Surrounding` iterator observes, in order. -/
def Surrounding.collect (s : Surrounding α) : List (α × Nat × Nat × Direction) :=
  match h : s.next with
  | none => []
  | some (it, s') => it :: s'.collect
termination_by s.dirs.length - s.dir
decreasing_by
  obtain ⟨hlt, hdirs, hdir, -⟩ := Surrounding.next_state s it s' h
  rw [hdirs]
  omega

theorem Surrounding.collect_next_none (s : Surrounding α) (h : s.next = none) :
    s.collect = [] := by
  rw [Surrounding.collect]
  split
  · rfl
  · rename_i it s' heq
    rw [h] at heq
    exact Option.noConfusion heq

theorem Surrounding.collect_next_some (s : Surrounding α)
    (it : α × Nat × Nat × Direction) (s' : Surrounding α)
    (h : s.next = some (it, s')) : s.collect = it :: s'.collect := by
  rw [Surrounding.collect]
  split
  · rename_i heq
    rw [h] at heq
    exact Option.noConfusion heq
  · rename_i it2 s2 heq
    rw [h] at heq
    simp only [Option.some.injEq, Prod.mk.injEq] at heq
    rw [heq.1, heq.2]

/-- Denotation of one direction of the neighbor iteration: the in-bounds
neighbor's cell, coordinate and direction, or `none` when out of bounds. -/
def surroundingItem (plane : List (List α)) (row col : Nat) (d : Direction) :
    Option (α × Nat × Nat × Direction) :=
  (d.apply_index plane row col).bind fun rc =>
    (cellAt? plane rc.1 rc.2).map fun v => (v, rc.1, rc.2, d)

/-- Denotation of the whole iteration: one item per in-bounds direction of
`dirs`, in the order of `dirs`. -/
def surroundingItems (plane : List (List α)) (row col : Nat)
    (dirs : List Direction) : List (α × Nat × Nat × Direction) :=
  dirs.filterMap (surroundingItem plane row col)

theorem Surrounding.collect_eq (s : Surrounding α) :
    s.collect = (s.dirs.drop s.dir).filterMap (surroundingItem s.plane s.row s.col) := by
  generalize hn : s.dirs.length - s.dir = n
  induction n using Nat.strong_induction_on generalizing s with
  | _ n ih =>
    by_cases hlt : s.dir < s.dirs.length
    · have hdrop : s.dirs.drop s.dir = s.dirs.get ⟨s.dir, hlt⟩ :: s.dirs.drop (s.dir + 1) := by
        rw [List.drop_eq_getElem_cons hlt]
        rfl
      cases happly : (s.dirs.get ⟨s.dir, hlt⟩).apply_index s.plane s.row s.col with
      | none =>
        have hnn : s.next = Surrounding.next { s with dir := s.dir + 1 } := by
          rw [Surrounding.next, dif_pos hlt, happly]
        have hcc : s.collect = Surrounding.collect { s with dir := s.dir + 1 } := by
          cases hnext : Surrounding.next { s with dir := s.dir + 1 } with
          | none =>
            rw [Surrounding.collect_next_none _ (hnn.trans hnext),
              Surrounding.collect_next_none _ hnext]
          | some p =>
            rw [Surrounding.collect_next_some _ p.1 p.2 (by rw [hnn, hnext]),
              Surrounding.collect_next_some _ p.1 p.2 hnext]
        rw [hcc, ih (s.dirs.length - (s.dir + 1)) (by omega) _ rfl, hdrop,
          List.filterMap_cons]
        have : surroundingItem s.plane s.row s.col (s.dirs.get ⟨s.dir, hlt⟩) = none := by
          unfold surroundingItem
          rw [happly]
          rfl
        rw [this]
      | some rc =>
        rcases apply_index_cellAt _ s.plane s.row s.col rc happly with ⟨v, hv⟩
        have hnext : s.next =
            some ((v, rc.1, rc.2, s.dirs.get ⟨s.dir, hlt⟩), { s with dir := s.dir + 1 }) := by
          rw [Surrounding.next, dif_pos hlt]
          simp only [happly, hv]
        rw [Surrounding.collect_next_some _ _ _ hnext,
          ih (s.dirs.length - (s.dir + 1)) (by omega) _ rfl, hdrop, List.filterMap_cons]
        have : surroundingItem s.plane s.row s.col (s.dirs.get ⟨s.dir, hlt⟩) =
            some (v, rc.1, rc.2, s.dirs.get ⟨s.dir, hlt⟩) := by
          unfold surroundingItem
          rw [happly]
          simp [hv]
        rw [this]
    · have hnone : s.next = none := by
        rw [Surrounding.next, dif_neg hlt]
      rw [Surrounding.collect_next_none _ hnone,
        List.drop_eq_nil_of_le (by omega), List.filterMap_nil]

/-- The `surrounding` constructor (the `tracing::trace!` call in the Rust
function is non-functional instrumentation and is not modelled). -/
def surrounding (plane : List (List α)) (row col : Nat)
    (dirs : List Direction) : Surrounding α :=
  { plane := plane, row := row, col := col, dir := 0, dirs := dirs }

/-- `surrounding_all`. -/
def surrounding_all (plane : List (List α)) (row col : Nat) : Surrounding α :=
  surrounding plane row col Direction.ALL

/-- `surrounding_cardinal`. -/
def surrounding_cardinal (plane : List (List α)) (row col : Nat) : Surrounding α :=
  surrounding plane row col Direction.CARDINAL

theorem surrounding_collect_eq (plane : List (List α)) (row col : Nat)
    (dirs : List Direction) :
    (surrounding plane row col dirs).collect = surroundingItems plane row col dirs := by
  rw [Surrounding.collect_eq]
  rfl

theorem surroundingItems_mem (plane : List (List α)) (row col : Nat)
    (dirs : List Direction) (v : α) (r c : Nat) (d : Direction)
    (h : (v, r, c, d) ∈ surroundingItems plane row col dirs) :
    d ∈ dirs ∧ d.apply_index plane row col = some (r, c) ∧ cellAt? plane r c = some v := by
  unfold surroundingItems at h
  rcases List.mem_filterMap.mp h with ⟨d', hd', hfd⟩
  cases happly : d'.apply_index plane row col with
  | none =>
    unfold surroundingItem at hfd
    rw [happly] at hfd
    exact Option.noConfusion hfd
  | some rc =>
    unfold surroundingItem at hfd
    rw [happly] at hfd
    simp only [Option.some_bind] at hfd
    cases hcell : cellAt? plane rc.1 rc.2 with
    | none =>
      rw [hcell] at hfd
      simp at hfd
    | some v' =>
      rw [hcell] at hfd
      simp only [Option.map_some', Option.some.injEq, Prod.mk.injEq] at hfd
      obtain ⟨h1, h2, h3, h4⟩ := hfd
      refine ⟨?_, ?_, ?_⟩
      · rw [← h4]
        exact hd'
      · rw [← h4, happly]
        exact congrArg some (Prod.ext h2 h3)
      · rw [← h2, ← h3, ← h1]
        exact hcell

/-- The finite set of valid coordinates of a grid. -/
def validPairs (plane : List (List α)) : Finset (Nat × Nat) :=
  (Finset.range plane.length).biUnion fun r =>
    (Finset.range (rowLen plane r)).image fun c => (r, c)

theorem mem_validPairs (plane : List (List α)) (p : Nat × Nat) :
    p ∈ validPairs plane ↔ validCoord plane p.1 p.2 := by
  rcases p with ⟨r, c⟩
  unfold validPairs validCoord
  simp only [Finset.mem_biUnion, Finset.mem_range, Finset.mem_image, Prod.mk.injEq]
  constructor
  · rintro ⟨a, ha, b, hb, rfl, rfl⟩
    exact ⟨ha, hb⟩
  · rintro ⟨hr, hc⟩
    exact ⟨r, hr, c, hc, rfl, rfl⟩

/-- The `for` loop of `flood_fill`'s body: push the coordinate of every
iterated item whose cell equals the target `t` onto the work-list. -/
def pushMatching [DecidableEq α] (t : α) (items : List (α × Nat × Nat × Direction))
    (queue : List (Nat × Nat)) : List (Nat × Nat) :=
  items.foldl (fun q it => if it.1 = t then (it.2.1, it.2.2.1) :: q else q) queue

theorem pushMatching_eq [DecidableEq α] (t : α)
    (items : List (α × Nat × Nat × Direction)) (queue : List (Nat × Nat)) :
    pushMatching t items queue =
      (items.filterMap fun it =>
        if it.1 = t then some (it.2.1, it.2.2.1) else none).reverse ++ queue := by
  induction items generalizing queue with
  | nil => rfl
  | cons it items ih =>
    unfold pushMatching at ih ⊢
    rw [List.foldl_cons, ih, List.filterMap_cons]
    by_cases hit : it.1 = t
    · rw [if_pos hit, if_pos hit, List.reverse_cons, List.append_assoc]
      rfl
    · rw [if_neg hit, if_neg hit]

theorem pushMatching_length [DecidableEq α] (t : α)
    (items : List (α × Nat × Nat × Direction)) (queue : List (Nat × Nat)) :
    (pushMatching t items queue).length ≤ items.length + queue.length := by
  rw [pushMatching_eq, List.length_append, List.length_reverse]
  have := List.length_filterMap_le
    (fun (it : α × Nat × Nat × Direction) =>
      if it.1 = t then some (it.2.1, it.2.2.1) else none) items
  omega

theorem mem_pushMatching [DecidableEq α] (t : α)
    (items : List (α × Nat × Nat × Direction)) (queue : List (Nat × Nat))
    (x : Nat × Nat) (h : x ∈ pushMatching t items queue) :
    x ∈ queue ∨ ∃ it ∈ items, it.1 = t ∧ x = (it.2.1, it.2.2.1) := by
  rw [pushMatching_eq, List.mem_append, List.mem_reverse] at h
  rcases h with h | h
  · rcases List.mem_filterMap.mp h with ⟨it, hit, hx⟩
    right
    by_cases ht : it.1 = t
    · rw [if_pos ht] at hx
      exact ⟨it, hit, ht, (Option.some.injEq .. ▸ hx).symm⟩
    · rw [if_neg ht] at hx
      exact Option.noConfusion hx
  · exact Or.inl h

theorem collect_mem_valid (plane : List (List α)) (row col : Nat)
    (dirs : List Direction) (it : α × Nat × Nat × Direction)
    (h : it ∈ (surrounding plane row col dirs).collect) :
    validCoord plane it.2.1 it.2.2.1 ∧ cellAt? plane it.2.1 it.2.2.1 = some it.1 := by
  rw [surrounding_collect_eq] at h
  rcases it with ⟨v, r, c, d⟩
  rcases surroundingItems_mem plane row col dirs v r c d h with ⟨-, happ, hcell⟩
  exact ⟨apply_index_valid d plane row col (r, c) happ, hcell⟩

theorem collect_cardinal_length (plane : List (List α)) (row col : Nat) :
    (surrounding_cardinal plane row col).collect.length ≤ 4 := by
  rw [surrounding_cardinal, surrounding_collect_eq]
  have := List.length_filterMap_le (surroundingItem plane row col) Direction.CARDINAL
  simpa [Direction.CARDINAL] using this

theorem floodLoop_measure_skip (plane : List (List α))
    (seen : Finset (Nat × Nat)) (p : Nat × Nat) (rest : List (Nat × Nat)) :
    ((validPairs plane ∪ rest.toFinset) \ seen).card * 5 + rest.length <
      ((validPairs plane ∪ (p :: rest).toFinset) \ seen).card * 5 + (p :: rest).length := by
  have hsub : (validPairs plane ∪ rest.toFinset) \ seen ⊆
      (validPairs plane ∪ (p :: rest).toFinset) \ seen := by
    apply Finset.sdiff_subset_sdiff _ (Finset.Subset.refl _)
    apply Finset.union_subset_union_right
    rw [List.toFinset_cons]
    exact Finset.subset_insert _ _
  have := Finset.card_le_card hsub
  simp only [List.length_cons]
  omega

theorem floodLoop_measure_push [DecidableEq α] (plane : List (List α)) (t : α)
    (seen : Finset (Nat × Nat)) (p : Nat × Nat) (rest : List (Nat × Nat))
    (hp : p ∉ seen) :
    ((validPairs plane ∪
        (pushMatching t (surrounding_cardinal plane p.1 p.2).collect rest).toFinset) \
        insert p seen).card * 5 +
      (pushMatching t (surrounding_cardinal plane p.1 p.2).collect rest).length <
    ((validPairs plane ∪ (p :: rest).toFinset) \ seen).card * 5 + (p :: rest).length := by
  have hqsub : (pushMatching t (surrounding_cardinal plane p.1 p.2).collect rest).toFinset ⊆
      validPairs plane ∪ rest.toFinset := by
    intro x hx
    rw [List.mem_toFinset] at hx
    rcases mem_pushMatching t _ rest x hx with hq | ⟨it, hit, -, rfl⟩
    · exact Finset.mem_union_right _ (List.mem_toFinset.mpr hq)
    · refine Finset.mem_union_left _ ?_
      rw [mem_validPairs]
      exact (collect_mem_valid plane p.1 p.2 Direction.CARDINAL it hit).1
  have hS' : (validPairs plane ∪
        (pushMatching t (surrounding_cardinal plane p.1 p.2).collect rest).toFinset) \
        insert p seen ⊆
      (((validPairs plane ∪ (p :: rest).toFinset) \ seen) \ {p}) := by
    intro x hx
    rw [Finset.mem_sdiff] at hx
    rcases hx with ⟨hx1, hx2⟩
    rw [Finset.mem_insert, not_or] at hx2
    rw [Finset.mem_sdiff, Finset.mem_sdiff, Finset.mem_singleton]
    refine ⟨⟨?_, hx2.2⟩, hx2.1⟩
    rcases Finset.mem_union.mp hx1 with hv | hq
    · exact Finset.mem_union_left _ hv
    · refine Finset.mem_union.mpr ?_
      rcases Finset.mem_union.mp (hqsub hq) with hv | hr
      · exact Or.inl hv
      · refine Or.inr ?_
        rw [List.toFinset_cons]
        exact Finset.mem_insert_of_mem hr
  have hpS : p ∈ (validPairs plane ∪ (p :: rest).toFinset) \ seen := by
    rw [Finset.mem_sdiff]
    refine ⟨Finset.mem_union_right _ ?_, hp⟩
    rw [List.toFinset_cons]
    exact Finset.mem_insert_self _ _
  have hcard1 := Finset.card_le_card hS'
  have hcard2 : (((validPairs plane ∪ (p :: rest).toFinset) \ seen) \ {p}).card =
      ((validPairs plane ∪ (p :: rest).toFinset) \ seen).card - 1 := by
    rw [Finset.card_sdiff (Finset.singleton_subset_iff.mpr hpS), Finset.card_singleton]
  have hcardpos : 1 ≤ ((validPairs plane ∪ (p :: rest).toFinset) \ seen).card :=
    Finset.card_pos.mpr ⟨p, hpS⟩ 
  have hlen := pushMatching_length t (surrounding_cardinal plane p.1 p.2).collect rest
  have hcl := collect_cardinal_length plane p.1 p.2
  simp only [List.length_cons]
  omega

/-- The `while let Some(..) = queue.pop()` loop of `flood_fill`. The Vec
work-list is a list with its head as the stack top; `processed` is a ghost
accumulator recording, in order, the coordinates that reach the body past
the `seen` check. Returns the final region and the ghost list. -/
def floodLoop [DecidableEq α] (plane : List (List α)) (t : α)
    (seen region : Finset (Nat × Nat)) (processed : List (Nat × Nat))
    (queue : List (Nat × Nat)) : Finset (Nat × Nat) × List (Nat × Nat) :=
  match queue with
  | [] => (region, processed)
  | (row, col) :: rest =>
    if h : (row, col) ∈ seen then
      floodLoop plane t seen region processed rest
    else
      floodLoop plane t (insert (row, col) seen) (insert (row, col) region)
        (processed ++ [(row, col)])
        (pushMatching t (surrounding_cardinal plane row col).collect rest)
termination_by ((validPairs plane ∪ queue.toFinset) \ seen).card * 5 + queue.length
decreasing_by
  · exact floodLoop_measure_skip plane seen (row, col) rest
  · exact floodLoop_measure_push plane t seen (row, col) rest h

/-- `flood_fill`. The Rust function first evaluates `&plane[row][col]`,
which panics when the start coordinate is invalid; that abort is the `none`
result here. Otherwise the work-list loop runs from seen = `{}`, region =
`{(row, col)}` and queue = `[(row, col)]`. -/
def flood_fill [DecidableEq α] (plane : List (List α)) (row col : Nat) :
    Option (Finset (Nat × Nat)) :=
  (cellAt? plane row col).map fun t =>
    (floodLoop plane t ∅ {(row, col)} [] [(row, col)]).1

/-- Ghost observation of `flood_fill`: the coordinates processed by the
loop body, in processing order. -/
def flood_fill_processed [DecidableEq α] (plane : List (List α)) (row col : Nat) :
    Option (List (Nat × Nat)) :=
  (cellAt? plane row col).map fun t =>
    (floodLoop plane t ∅ {(row, col)} [] [(row, col)]).2

/-- One step of the 4-connected equal-value traversal: `q` is an in-bounds
cardinal neighbor of `p` and `q`'s cell equals the target value `t`. -/
def floodStep (plane : List (List α)) (t : α) (p q : Nat × Nat) : Prop :=
  (∃ d ∈ Direction.CARDINAL, d.apply_index plane p.1 p.2 = some q) ∧
    cellAt? plane q.1 q.2 = some t

theorem surroundingItems_mem_of (plane : List (List α)) (row col : Nat)
    (dirs : List Direction) (v : α) (r c : Nat) (d : Direction)
    (hd : d ∈ dirs) (happ : d.apply_index plane row col = some (r, c))
    (hcell : cellAt? plane r c = some v) :
    (v, r, c, d) ∈ surroundingItems plane row col dirs := by
  unfold surroundingItems
  refine List.mem_filterMap.mpr ⟨d, hd, ?_⟩
  unfold surroundingItem
  rw [happ, Option.some_bind, hcell, Option.map_some']

theorem pushMatching_mem_rest [DecidableEq α] (t : α)
    (items : List (α × Nat × Nat × Direction)) (queue : List (Nat × Nat))
    (x : Nat × Nat) (hx : x ∈ queue) : x ∈ pushMatching t items queue := by
  rw [pushMatching_eq]
  exact List.mem_append_right _ hx

theorem pushMatching_mem_of [DecidableEq α] (t : α)
    (items : List (α × Nat × Nat × Direction)) (queue : List (Nat × Nat))
    (it : α × Nat × Nat × Direction) (hit : it ∈ items) (ht : it.1 = t) :
    (it.2.1, it.2.2.1) ∈ pushMatching t items queue := by
  rw [pushMatching_eq]
  apply List.mem_append_left
  rw [List.mem_reverse]
  exact List.mem_filterMap.mpr ⟨it, hit, by rw [if_pos ht]⟩

theorem reach_valid (plane : List (List α)) (t : α) (start q : Nat × Nat)
    (hstart : validCoord plane start.1 start.2)
    (h : Relation.ReflTransGen (floodStep plane t) start q) :
    validCoord plane q.1 q.2 := by
  induction h with
  | refl => exact hstart
  | tail hab hbc ihq =>
    rcases hbc with ⟨-, hcell⟩
    exact (cellAt?_isSome_iff plane _ _).mp (by rw [hcell]; rfl)

theorem reach_value (plane : List (List α)) (t : α) (start q : Nat × Nat)
    (h : Relation.ReflTransGen (floodStep plane t) start q) :
    q = start ∨ cellAt? plane q.1 q.2 = some t := by
  induction h with
  | refl => exact Or.inl rfl
  | tail hab hbc ihq => exact Or.inr hbc.2

theorem floodLoop_spec [DecidableEq α] (plane : List (List α)) (t : α)
    (start : Nat × Nat) (seen region : Finset (Nat × Nat))
    (processed : List (Nat × Nat)) (queue : List (Nat × Nat))
    (hseen : ∀ x ∈ seen, Relation.ReflTransGen (floodStep plane t) start x)
    (hqueue : ∀ x ∈ queue, Relation.ReflTransGen (floodStep plane t) start x)
    (hclosed : ∀ p ∈ seen, ∀ q, floodStep plane t p q → q ∈ seen ∨ q ∈ queue)
    (hstart : start ∈ seen ∨ start ∈ queue)
    (hregion : region = insert start seen)
    (hnodup : processed.Nodup)
    (hpt : processed.toFinset = seen) :
    (∀ q, q ∈ (floodLoop plane t seen region processed queue).1 ↔
        Relation.ReflTransGen (floodStep plane t) start q) ∧
      (floodLoop plane t seen region processed queue).2.Nodup ∧
      ∀ x ∈ (floodLoop plane t seen region processed queue).2,
        Relation.ReflTransGen (floodStep plane t) start x := by
  generalize hn : ((validPairs plane ∪ queue.toFinset) \ seen).card * 5 + queue.length = n
  induction n using Nat.strong_induction_on generalizing seen region processed queue with
  | _ n ih =>
    rcases queue with _ | ⟨⟨prow, pcol⟩, rest⟩
    · rw [floodLoop]
      have hstartseen : start ∈ seen := by
        rcases hstart with h | h
        · exact h
        · exact absurd h (List.not_mem_nil start)
      refine ⟨?_, hnodup, ?_⟩
      · intro q
        constructor
        · intro hq
          rw [hregion] at hq
          rcases Finset.mem_insert.mp hq with rfl | hq
          · exact Relation.ReflTransGen.refl
          · exact hseen q hq
        · intro hq
          rw [hregion]
          induction hq with
          | refl => exact Finset.mem_insert_self start seen
          | tail hab hbc ihq =>
            rename_i b c2
            have hb : b ∈ seen := by
              rcases Finset.mem_insert.mp ihq with rfl | h
              · exact hstartseen
              · exact h
            rcases hclosed b hb c2 hbc with h | h
            · exact Finset.mem_insert_of_mem h
            · exact absurd h (List.not_mem_nil c2)
      · intro x hx
        exact hseen x (hpt ▸ List.mem_toFinset.mpr hx)
    · rw [floodLoop]
      by_cases hp : (prow, pcol) ∈ seen
      · rw [dif_pos hp]
        refine ih _ ?_ seen region processed rest hseen
          (fun x hx => hqueue x (List.mem_cons_of_mem _ hx)) ?_ ?_ hregion hnodup hpt rfl
        · rw [← hn]
          exact floodLoop_measure_skip plane seen (prow, pcol) rest
        · intro p2 hp2 q hq
          rcases hclosed p2 hp2 q hq with h | h
          · exact Or.inl h
          · rcases List.mem_cons.mp h with rfl | h
            · exact Or.inl hp
            · exact Or.inr h
        · rcases hstart with h | h
          · exact Or.inl h
          · rcases List.mem_cons.mp h with rfl | h
            · exact Or.inl hp
            · exact Or.inr h
      · rw [dif_neg hp]
        have hreachp : Relation.ReflTransGen (floodStep plane t) start (prow, pcol) :=
          hqueue _ (List.mem_cons_self _ _)
        have hpush : ∀ x ∈ pushMatching t (surrounding_cardinal plane prow pcol).collect rest,
            x ∈ rest ∨ floodStep plane t (prow, pcol) x := by
          intro x hx
          rcases mem_pushMatching t _ rest x hx with h | ⟨it, hit, ht, rfl⟩
          · exact Or.inl h
          · right
            rcases it with ⟨v, r2, c2, d2⟩
            rw [surrounding_cardinal, surrounding_collect_eq] at hit
            rcases surroundingItems_mem plane prow pcol Direction.CARDINAL v r2 c2 d2 hit
              with ⟨hd2, happ2, hcell2⟩
            have hv : v = t := ht
            subst hv
            exact ⟨⟨d2, hd2, happ2⟩, hcell2⟩
        have hpnotin : (prow, pcol) ∉ processed := fun hc =>
          hp (hpt ▸ List.mem_toFinset.mpr hc)
        refine ih _ ?_ (insert (prow, pcol) seen) (insert (prow, pcol) region)
          (processed ++ [(prow, pcol)])
          (pushMatching t (surrounding_cardinal plane prow pcol).collect rest)
          ?_ ?_ ?_ ?_ ?_ ?_ ?_ rfl
        · rw [← hn]
          exact floodLoop_measure_push plane t seen (prow, pcol) rest hp
        · intro x hx
          rcases Finset.mem_insert.mp hx with rfl | hx
          · exact hreachp
          · exact hseen x hx
        · intro x hx
          rcases hpush x hx with h | h
          · exact hqueue x (List.mem_cons_of_mem _ h)
          · exact Relation.ReflTransGen.tail hreachp h
        · intro p2 hp2 q hq
          rcases Finset.mem_insert.mp hp2 with rfl | hp2
          · rcases hq with ⟨⟨d, hd, happ⟩, hcell⟩
            right
            have hmem : ((t, q.1, q.2, d) : α × Nat × Nat × Direction) ∈
                (surrounding_cardinal plane prow pcol).collect := by
              rw [surrounding_cardinal, surrounding_collect_eq]
              exact surroundingItems_mem_of plane prow pcol Direction.CARDINAL t q.1 q.2 d
                hd happ hcell
            exact pushMatching_mem_of t _ rest (t, q.1, q.2, d) hmem rfl
          · rcases hclosed p2 hp2 q hq with h | h
            · exact Or.inl (Finset.mem_insert_of_mem h)
            · rcases List.mem_cons.mp h with rfl | h
              · exact Or.inl (Finset.mem_insert_self _ _)
              · exact Or.inr (pushMatching_mem_rest t _ rest q h)
        · rcases hstart with h | h
          · exact Or.inl (Finset.mem_insert_of_mem h)
          · rcases List.mem_cons.mp h with rfl | h
            · exact Or.inl (Finset.mem_insert_self _ _)
            · exact Or.inr (pushMatching_mem_rest t _ rest start h)
        · rw [hregion]
          exact Finset.Insert.comm _ _ _
        · simp only [List.nodup_append, List.nodup_singleton, List.disjoint_singleton,
            true_and, and_true]
          exact ⟨hnodup, hpnotin⟩
        · rw [List.toFinset_append, hpt]
          ext x
          simp only [Finset.mem_union, List.mem_toFinset, List.mem_singleton,
            List.toFinset_cons, List.toFinset_nil, insert_emptyc_eq, Finset.mem_insert,
            Finset.mem_singleton]
          tauto

theorem flood_fill_eq_reach [DecidableEq α] (plane : List (List α)) (row col : Nat)
    (t : α) (h : cellAt? plane row col = some t) :
    flood_fill plane row col = some (floodLoop plane t ∅ {(row, col)} [] [(row, col)]).1 ∧
      ∀ q, (q ∈ (floodLoop plane t ∅ {(row, col)} [] [(row, col)]).1 ↔
        Relation.ReflTransGen (floodStep plane t) (row, col) q) := by
  constructor
  · rw [flood_fill, h, Option.map_some']
  · exact (floodLoop_spec plane t (row, col) ∅ {(row, col)} [] [(row, col)]
      (fun x hx => absurd hx (Finset.not_mem_empty x))
      (fun x hx => by rcases List.mem_singleton.mp hx with rfl; exact Relation.ReflTransGen.refl)
      (fun p hp => absurd hp (Finset.not_mem_empty p))
      (Or.inr (List.mem_singleton_self _))
      (by simp) List.nodup_nil rfl).1

theorem flood_fill_processed_spec [DecidableEq α] (plane : List (List α)) (row col : Nat)
    (t : α) (h : cellAt? plane row col = some t) :
    flood_fill_processed plane row col =
        some (floodLoop plane t ∅ {(row, col)} [] [(row, col)]).2 ∧
      (floodLoop plane t ∅ {(row, col)} [] [(row, col)]).2.Nodup ∧
      ∀ x ∈ (floodLoop plane t ∅ {(row, col)} [] [(row, col)]).2,
        Relation.ReflTransGen (floodStep plane t) (row, col) x := by
  refine ⟨by rw [flood_fill_processed, h, Option.map_some'], ?_⟩
  exact (floodLoop_spec plane t (row, col) ∅ {(row, col)} [] [(row, col)]
    (fun x hx => absurd hx (Finset.not_mem_empty x))
    (fun x hx => by rcases List.mem_singleton.mp hx with rfl; exact Relation.ReflTransGen.refl)
    (fun p hp => absurd hp (Finset.not_mem_empty p))
    (Or.inr (List.mem_singleton_self _))
    (by simp) List.nodup_nil rfl).2

/-- Total number of cells of the grid. -/
def totalCells (plane : List (List α)) : Nat :=
  (plane.map List.length).sum

theorem sum_rowLen (plane : List (List α)) :
    ∑ r ∈ Finset.range plane.length, rowLen plane r = totalCells plane := by
  induction plane with
  | nil => simp [totalCells]
  | cons hd tl ihp =>
    rw [List.length_cons, Finset.sum_range_succ']
    have h0 : rowLen (hd :: tl) 0 = hd.length := rfl
    have hs : ∀ i, rowLen (hd :: tl) (i + 1) = rowLen tl i := fun i => rfl
    simp only [h0, hs, ihp]
    simp [totalCells]
    omega

theorem validPairs_card (plane : List (List α)) :
    (validPairs plane).card = totalCells plane := by
  unfold validPairs
  rw [Finset.card_biUnion]
  · rw [← sum_rowLen plane]
    apply Finset.sum_congr rfl
    intro r _
    rw [Finset.card_image_of_injective _ fun a b hab => by
      have := Prod.mk.injEq r a r b ▸ hab
      simpa using this]
    exact Finset.card_range _
  · intro x _ y _ hxy
    rw [Finset.disjoint_left]
    intro a hax hay
    rcases Finset.mem_image.mp hax with ⟨c1, -, rfl⟩
    rcases Finset.mem_image.mp hay with ⟨c2, -, hc⟩
    exact hxy (congrArg Prod.fst hc).symm

theorem floodStep_symm (plane : List (List α)) (t : α) (p q : Nat × Nat)
    (hpvalid : validCoord plane p.1 p.2) (hpval : cellAt? plane p.1 p.2 = some t)
    (h : floodStep plane t p q) : floodStep plane t q p := by
  rcases h with ⟨⟨d, hd, happ⟩, -⟩
  have hopp : ∀ d ∈ Direction.CARDINAL, ∃ d' ∈ Direction.CARDINAL,
      d'.to_offset.1 = -d.to_offset.1 ∧ d'.to_offset.2 = -d.to_offset.2 := by decide
  rcases hopp d hd with ⟨d', hd', ho1, ho2⟩
  rcases (apply_index_eq_some d plane p.1 p.2 q).mp (by exact happ) with ⟨h1, h2, hvq, hq⟩
  have hq1 : (q.1 : Int) = (p.1 : Int) + d.to_offset.1 := by
    rw [hq]
    simp only
    omega
  have hq2 : (q.2 : Int) = (p.2 : Int) + d.to_offset.2 := by
    rw [hq]
    simp only
    omega
  refine ⟨⟨d', hd', ?_⟩, hpval⟩
  rw [apply_index_eq_some d' plane q.1 q.2 p, ho1, ho2]
  have e1 : (q.1 : Int) + -d.to_offset.1 = (p.1 : Int) := by omega
  have e2 : (q.2 : Int) + -d.to_offset.2 = (p.2 : Int) := by omega
  rw [e1, e2, Int.toNat_natCast, Int.toNat_natCast]
  exact ⟨Int.natCast_nonneg _, Int.natCast_nonneg _, hpvalid, rfl⟩

theorem reach_symm (plane : List (List α)) (t : α) (start q : Nat × Nat)
    (hvalid : validCoord plane start.1 start.2)
    (hval : cellAt? plane start.1 start.2 = some t)
    (h : Relation.ReflTransGen (floodStep plane t) start q) :
    Relation.ReflTransGen (floodStep plane t) q start := by
  induction h with
  | refl => exact Relation.ReflTransGen.refl
  | tail hab hbc ihq =>
    rename_i b c2
    have hbvalid : validCoord plane b.1 b.2 := reach_valid plane t start b hvalid hab
    have hbval : cellAt? plane b.1 b.2 = some t := by
      rcases reach_value plane t start b hab with rfl | hv
      · exact hval
      · exact hv
    exact Relation.ReflTransGen.head (floodStep_symm plane t b c2 hbvalid hbval hbc) ihq

theorem flood_fill_start_irrelevant [DecidableEq α] (plane : List (List α))
    (p q : Nat × Nat) (t : α) (hp : cellAt? plane p.1 p.2 = some t)
    (hq : Relation.ReflTransGen (floodStep plane t) p q) :
    flood_fill plane p.1 p.2 = flood_fill plane q.1 q.2 := by
  have hpvalid : validCoord plane p.1 p.2 :=
    (cellAt?_isSome_iff plane p.1 p.2).mp (by rw [hp]; rfl)
  have hqval : cellAt? plane q.1 q.2 = some t := by
    rcases reach_value plane t p q hq with rfl | hv
    · exact hp
    · exact hv
  have hback : Relation.ReflTransGen (floodStep plane t) q p :=
    reach_symm plane t p q hpvalid hp hq
  rcases flood_fill_eq_reach plane p.1 p.2 t hp with ⟨hfp, hRp⟩
  rcases flood_fill_eq_reach plane q.1 q.2 t hqval with ⟨hfq, hRq⟩
  rw [hfp, hfq]
  congr 1
  ext x
  rw [hRp x, hRq x]
  constructor
  · intro hx
    exact Relation.ReflTransGen.trans hback hx
  · intro hx
    exact Relation.ReflTransGen.trans hq hx

/-- Variant of `apply_index` with the defensive zero-offset rejection
removed, used to show that branch is unreachable (claim C10). -/
def apply_index_no_zero_check (d : Direction) (plane : List (List α)) (row col : Nat) :
    Option (Nat × Nat) :=
  if in_bounds_2d plane ((row : Int) + d.to_offset.1) ((col : Int) + d.to_offset.2) then
    some (((row : Int) + d.to_offset.1).toNat, ((col : Int) + d.to_offset.2).toNat)
  else
    none

/-- The neighbor bound exactly as claim C2 words it: the offset coordinate
must lie within `[0, rows) × [0, row_length r)` where `r` is the row of the
STARTING coordinate (not of the target). -/
def neighborClaimBound (plane : List (List α)) (r c : Nat) (d : Direction) : Prop :=
  0 ≤ (r : Int) + d.to_offset.1 ∧ (r : Int) + d.to_offset.1 < (plane.length : Int) ∧
    0 ≤ (c : Int) + d.to_offset.2 ∧ (c : Int) + d.to_offset.2 < (rowLen plane r : Int)

instance (plane : List (List α)) (r c : Nat) (d : Direction) :
    Decidable (neighborClaimBound plane r c d) := by
  unfold neighborClaimBound; infer_instance

/-- C5: `right_90` realises exactly the permutation NW→NE, N→E, NE→SE, W→N,
E→S, SW→NW, S→W, SE→SW; applying it 4 times is the identity on every
direction, and no direction returns to itself after 1, 2 or 3 applications
(cycle length exactly 4). -/
theorem c5_right_90_cycle :
    (Direction.NW.right_90 = Direction.NE ∧ Direction.N.right_90 = Direction.E ∧
      Direction.NE.right_90 = Direction.SE ∧ Direction.W.right_90 = Direction.N ∧
      Direction.E.right_90 = Direction.S ∧ Direction.SW.right_90 = Direction.NW ∧
      Direction.S.right_90 = Direction.W ∧ Direction.SE.right_90 = Direction.SW) ∧
    (∀ d : Direction, d.right_90.right_90.right_90.right_90 = d) ∧
    (∀ d : Direction, (d.right_90 == d) = false ∧ (d.right_90.right_90 == d) = false ∧
      (d.right_90.right_90.right_90 == d) = false) := by
  refine ⟨by decide, by decide, by decide⟩

/-- C10: `to_offset` maps the 8 directions bijectively onto the 8 nonzero
offsets of `{-1,0,1}²` (the image list enumerates them all, without
repetition and without `(0,0)`); consequently the zero-offset rejection in
`apply_index` is unreachable: `apply_index` agrees everywhere with the
variant that omits the check. -/
theorem c10_to_offset_bijective {α : Type} :
    (Direction.ALL.map Direction.to_offset =
      [(-1, -1), (-1, 0), (-1, 1), (0, -1), (0, 1), (1, -1), (1, 0), (1, 1)]) ∧
    (Direction.ALL.map Direction.to_offset).Nodup ∧
    ((0, 0) ∈ Direction.ALL.map Direction.to_offset) = False ∧
    ∀ (d : Direction) (plane : List (List α)) (row col : Nat),
      d.apply_index plane row col = apply_index_no_zero_check d plane row col := by
  refine ⟨by decide, by decide, by simp; decide, ?_⟩
  intro d plane row col
  unfold Direction.apply_index apply_index_no_zero_check
  have hz : (!(d.to_offset.1 == 0 && d.to_offset.2 == 0)) = true := by
    revert d; decide
  rw [hz, Bool.and_true]

/-- C8: `in_bounds_2d` is total on every signed input (it is a Lean
function, hence side-effect-free and non-panicking, including at very large
magnitudes), it decides exactly the §3 validity predicate, and it
short-circuits: when the row is out of range the result is `false` — by the
`dite` in its definition, no row of the grid is consulted in that case. -/
theorem c8_in_bounds_total (plane : List (List α)) (row col : Int) :
    (in_bounds_2d plane row col = true ↔
      (0 ≤ row ∧ 0 ≤ col ∧ validCoord plane row.toNat col.toNat)) ∧
    (¬(0 ≤ row ∧ row < (plane.length : Int)) → in_bounds_2d plane row col = false) :=
  ⟨in_bounds_2d_iff plane row col, in_bounds_2d_shortcircuit plane row col⟩

/-- Witness for C8 at a very large negative row (-2^80) and a very large
column (2^90) on a concrete grid. -/
theorem c8_in_bounds_total_witness :
    in_bounds_2d [[(0 : Nat)]] (-1208925819614629174706176)
      1237940039285380274899124224 = false :=
  (c8_in_bounds_total [[(0 : Nat)]] (-1208925819614629174706176)
    1237940039285380274899124224).2 (by decide)

/-- Counterexample to C2 as stated: on the jagged grid `[[0], [0, 0]]` at the
valid start `(0, 0)`, direction SE, `apply_index` returns a coordinate even
though the target column 1 is not within `[0, row_length 0) = [0, 1)` — the
code checks the TARGET row's length, not the start row's. -/
theorem c2_claim_counterexample :
    validCoord [[(0 : Nat)], [0, 0]] 0 0 ∧
    (Direction.SE.apply_index [[(0 : Nat)], [0, 0]] 0 0).isSome = true ∧
    ¬ neighborClaimBound [[(0 : Nat)], [0, 0]] 0 0 Direction.SE := by
  refine ⟨by decide, by decide, by decide⟩

/-- C2 (amended): for every valid coordinate and direction, `apply_index`
returns a coordinate iff adding the direction's offset lands in
`[0, rows) × [0, row_length (r + row_offset))` — the column is checked
against the length of the TARGET row. -/
theorem c2_neighbor_index_iff (plane : List (List α)) (r c : Nat) (d : Direction)
    (h : validCoord plane r c) :
    (d.apply_index plane r c).isSome = true ↔
      (0 ≤ (r : Int) + d.to_offset.1 ∧ (r : Int) + d.to_offset.1 < (plane.length : Int) ∧
        0 ≤ (c : Int) + d.to_offset.2 ∧
        (c : Int) + d.to_offset.2 <
          (rowLen plane ((r : Int) + d.to_offset.1).toNat : Int)) := by
  rw [Option.isSome_iff_exists]
  constructor
  · rintro ⟨p, hp⟩
    rcases (apply_index_eq_some d plane r c p).mp hp with ⟨h1, h2, hv, -⟩
    rcases hv with ⟨hv1, hv2⟩
    refine ⟨h1, by omega, h2, by omega⟩
  · rintro ⟨h1, h2, h3, h4⟩
    refine ⟨(((r : Int) + d.to_offset.1).toNat, ((c : Int) + d.to_offset.2).toNat), ?_⟩
    rw [apply_index_eq_some]
    exact ⟨h1, h3, by unfold validCoord; omega, rfl⟩

/-- Witness for the amended C2 at `(0, 0)` of the jagged grid, direction SE:
the neighbor exists because the target row 1 has length 2. -/
theorem c2_neighbor_index_iff_witness :
    validCoord [[(0 : Nat)], [0, 0]] 0 0 ∧
      ((Direction.SE.apply_index [[(0 : Nat)], [0, 0]] 0 0).isSome = true ↔
        (0 ≤ ((0 : Nat) : Int) + Direction.SE.to_offset.1 ∧
          ((0 : Nat) : Int) + Direction.SE.to_offset.1 <
            (([[(0 : Nat)], [0, 0]].length : Nat) : Int) ∧
          0 ≤ ((0 : Nat) : Int) + Direction.SE.to_offset.2 ∧
          ((0 : Nat) : Int) + Direction.SE.to_offset.2 <
            (rowLen [[(0 : Nat)], [0, 0]]
              ((((0 : Nat) : Int) + Direction.SE.to_offset.1).toNat) : Int))) :=
  ⟨by decide, c2_neighbor_index_iff [[(0 : Nat)], [0, 0]] 0 0 Direction.SE (by decide)⟩

/-- C9: every coordinate `apply_index` produces, every item the neighbor
iterator yields, and every member of a `flood_fill` region is a valid
coordinate of the grid, and every cell dereference is in bounds (the item's
cell really is the cell at its coordinate). -/
theorem c9_validity_invariant (α : Type) [DecidableEq α] :
    (∀ (plane : List (List α)) (row col : Nat) (d : Direction) (p : Nat × Nat),
        d.apply_index plane row col = some p → validCoord plane p.1 p.2) ∧
    (∀ (plane : List (List α)) (row col : Nat) (dirs : List Direction)
        (it : α × Nat × Nat × Direction),
        it ∈ (surrounding plane row col dirs).collect →
        validCoord plane it.2.1 it.2.2.1 ∧ cellAt? plane it.2.1 it.2.2.1 = some it.1) ∧
    (∀ (plane : List (List α)) (row col : Nat) (R : Finset (Nat × Nat)),
        validCoord plane row col → flood_fill plane row col = some R →
        ∀ p ∈ R, validCoord plane p.1 p.2) := by
  refine ⟨fun plane row col d p h => apply_index_valid d plane row col p h,
    collect_mem_valid, ?_⟩
  intro plane row col R h hR p hp
  rcases Option.isSome_iff_exists.mp ((cellAt?_isSome_iff plane row col).mpr h) with ⟨t, ht⟩
  rcases flood_fill_eq_reach plane row col t ht with ⟨hf, hreach⟩
  rw [hf, Option.some.injEq] at hR
  rw [← hR] at hp
  exact reach_valid plane t (row, col) p h ((hreach p).mp hp)

/-- Witness for C9: the east neighbor `(0, 1)` produced by `apply_index` on
the grid `[[0, 1]]` is valid. -/
theorem c9_validity_invariant_witness : validCoord [[(0 : Nat), 1]] 0 1 :=
  (c9_validity_invariant Nat).1 [[(0 : Nat), 1]] 0 0 Direction.E (0, 1) (by decide)

/-- Counterexample to C4 as stated: on the grid `[[0], [1]]` the coordinate
`(2, 0)` is invalid, yet the neighbor iterator constructed there does not
terminate abruptly — it silently yields the one in-bounds neighbor `(1, 0)`
(a normal, nonempty result). The `surrounding` constructor performs no
bounds validation; the only dereference of the start coordinate in the Rust
source sits inside a `tracing::trace!` argument, which is non-functional
instrumentation with no semantic contract. -/
theorem c4_claim_counterexample :
    ¬ validCoord [[(0 : Nat)], [1]] 2 0 ∧
      (surrounding [[(0 : Nat)], [1]] 2 0 Direction.ALL).collect =
        [(1, 1, 0, Direction.N)] := by
  refine ⟨by decide, ?_⟩
  rw [surrounding_collect_eq]
  decide

/-- C4 (amended): `flood_fill` fails fast on an invalid start coordinate —
the Rust code's first action is the panicking index `&plane[row][col]`,
modelled as the `none` result — while the neighbor iterator does not
validate its start and simply yields the in-bounds neighbors of the given
(possibly invalid) coordinate. -/
theorem c4_invalid_start (α : Type) [DecidableEq α] (plane : List (List α))
    (row col : Nat) (h : ¬ validCoord plane row col) :
    flood_fill plane row col = none ∧
      ∀ dirs, (surrounding plane row col dirs).collect =
        surroundingItems plane row col dirs := by
  constructor
  · rw [flood_fill, Option.eq_none_iff_forall_not_mem]
    intro a ha
    rcases Option.map_eq_some'.mp ha with ⟨t, ht, -⟩
    exact h ((cellAt?_isSome_iff plane row col).mp (by rw [ht]; rfl))
  · intro dirs
    exact surrounding_collect_eq plane row col dirs

/-- Witness for the amended C4 at the invalid start `(1, 0)` of `[[0]]`. -/
theorem c4_invalid_start_witness :
    ¬ validCoord [[(0 : Nat)]] 1 0 ∧
      (flood_fill [[(0 : Nat)]] 1 0 = none ∧
        ∀ dirs, (surrounding [[(0 : Nat)]] 1 0 dirs).collect =
          surroundingItems [[(0 : Nat)]] 1 0 dirs) :=
  ⟨by decide, c4_invalid_start Nat [[(0 : Nat)]] 1 0 (by decide)⟩

/-- C1: for every grid and valid start `(row, col)` with start value `t`,
`flood_fill` succeeds and returns exactly the set of coordinates reachable
from the start by 4-cardinal steps into cells equal to the original start
value `t` (fixed once, compared with the cell type's equality); the start
itself is always a member — even with no matching neighbor, reachability is
reflexive — and every member is a valid coordinate. -/
theorem c1_flood_fill_region (α : Type) [DecidableEq α] (plane : List (List α))
    (row col : Nat) (t : α) (h : cellAt? plane row col = some t) :
    ∃ R, flood_fill plane row col = some R ∧
      (∀ q, q ∈ R ↔ Relation.ReflTransGen (floodStep plane t) (row, col) q) ∧
      (row, col) ∈ R ∧ ∀ q ∈ R, validCoord plane q.1 q.2 := by
  rcases flood_fill_eq_reach plane row col t h with ⟨hf, hR⟩
  refine ⟨_, hf, hR, (hR _).mpr Relation.ReflTransGen.refl, ?_⟩
  intro q hq
  have hvalid : validCoord plane row col :=
    (cellAt?_isSome_iff plane row col).mp (by rw [h]; rfl)
  exact reach_valid plane t (row, col) q hvalid ((hR q).mp hq)

/-- Witness for C1 on the spec's example grid (A = 0, B = 1) at start
`(0, 0)`. -/
theorem c1_flood_fill_region_witness :
    ∃ R, flood_fill [[0, 0, 1], [0, 1, 1]] 0 0 = some R ∧
      (∀ q, q ∈ R ↔
        Relation.ReflTransGen (floodStep [[0, 0, 1], [0, 1, 1]] 0) (0, 0) q) ∧
      (0, 0) ∈ R ∧ ∀ q ∈ R, validCoord [[0, 0, 1], [0, 1, 1]] q.1 q.2 :=
  c1_flood_fill_region Nat [[0, 0, 1], [0, 1, 1]] 0 0 0 (by decide)

/-- C3: for every grid, valid start and direction set, exhausting the
neighbor iterator yields exactly one item per direction of the set whose
neighbor is in bounds, in the set's fixed order, silently skipping
out-of-bounds directions: the collected items are the denotation
`surroundingItems`, their directions are precisely the in-bounds directions
of `dirs` in order, and the item count equals the in-bounds count (so an
interior cell with all of `ALL` in bounds yields 8 items in the order
NW,N,NE,W,E,SW,S,SE, and a corner yields 3). -/
theorem c3_surrounding_iteration (plane : List (List α)) (row col : Nat)
    (dirs : List Direction) (h : validCoord plane row col) :
    (surrounding plane row col dirs).collect = surroundingItems plane row col dirs ∧
      ((surrounding plane row col dirs).collect.map fun it => it.2.2.2) =
        dirs.filter (fun d => (d.apply_index plane row col).isSome) ∧
      (surrounding plane row col dirs).collect.length =
        (dirs.filter fun d => (d.apply_index plane row col).isSome).length := by
  have key : ∀ ds : List Direction,
      ((ds.filterMap (surroundingItem plane row col)).map fun it => it.2.2.2) =
        ds.filter fun d => (d.apply_index plane row col).isSome := by
    intro ds
    induction ds with
    | nil => rfl
    | cons d ds ihd =>
      rw [List.filterMap_cons, List.filter_cons]
      cases happ : d.apply_index plane row col with
      | none =>
        have hi : surroundingItem plane row col d = none := by
          unfold surroundingItem
          rw [happ]
          rfl
        rw [hi]
        simp [ihd]
      | some rc =>
        rcases apply_index_cellAt d plane row col rc happ with ⟨v, hv⟩
        have hi : surroundingItem plane row col d = some (v, rc.1, rc.2, d) := by
          unfold surroundingItem
          rw [happ, Option.some_bind, hv, Option.map_some']
        rw [hi]
        simp [ihd]
  refine ⟨surrounding_collect_eq plane row col dirs, ?_, ?_⟩
  · rw [surrounding_collect_eq]
    exact key dirs
  · have hlen := congrArg List.length (key dirs)
    rw [List.length_map] at hlen
    rw [surrounding_collect_eq]
    exact hlen

/-- Witness for C3 at the interior cell `(1, 1)` of a 3×3 grid with the
full 8-direction set. -/
theorem c3_surrounding_iteration_witness :
    validCoord [[0, 1, 2], [3, 4, 5], [6, 7, 8]] 1 1 ∧
      ((surrounding [[0, 1, 2], [3, 4, 5], [6, 7, 8]] 1 1 Direction.ALL).collect =
          surroundingItems [[0, 1, 2], [3, 4, 5], [6, 7, 8]] 1 1 Direction.ALL ∧
        ((surrounding [[0, 1, 2], [3, 4, 5], [6, 7, 8]] 1 1
              Direction.ALL).collect.map fun it => it.2.2.2) =
          Direction.ALL.filter
            (fun d => (d.apply_index [[0, 1, 2], [3, 4, 5], [6, 7, 8]] 1 1).isSome) ∧
        (surrounding [[0, 1, 2], [3, 4, 5], [6, 7, 8]] 1 1
            Direction.ALL).collect.length =
          (Direction.ALL.filter
            (fun d =>
              (d.apply_index [[0, 1, 2], [3, 4, 5], [6, 7, 8]] 1 1).isSome)).length) :=
  ⟨by decide,
    c3_surrounding_iteration [[0, 1, 2], [3, 4, 5], [6, 7, 8]] 1 1 Direction.ALL
      (by decide)⟩

/-- C6: for every grid and valid start, `flood_fill` terminates with a
defined region, and the loop body runs at most once per coordinate: the
ghost list of coordinates processed past the `seen` check has no duplicate
and its length never exceeds the total cell count of the grid. -/
theorem c6_flood_fill_visits (α : Type) [DecidableEq α] (plane : List (List α))
    (row col : Nat) (h : validCoord plane row col) :
    (∃ R, flood_fill plane row col = some R) ∧
      ∃ pr, flood_fill_processed plane row col = some pr ∧ pr.Nodup ∧
        pr.length ≤ totalCells plane := by
  rcases Option.isSome_iff_exists.mp ((cellAt?_isSome_iff plane row col).mpr h) with ⟨t, ht⟩
  rcases flood_fill_processed_spec plane row col t ht with ⟨hf, hnd, hall⟩
  refine ⟨⟨_, (flood_fill_eq_reach plane row col t ht).1⟩, _, hf, hnd, ?_⟩
  have hsub : (floodLoop plane t ∅ {(row, col)} [] [(row, col)]).2.toFinset ⊆
      validPairs plane := by
    intro x hx
    rw [mem_validPairs]
    exact reach_valid plane t (row, col) x h (hall x (List.mem_toFinset.mp hx))
  have hcard := Finset.card_le_card hsub
  rw [validPairs_card] at hcard
  rwa [List.toFinset_card_of_nodup hnd] at hcard

/-- Witness for C6 on the single-cell grid at its only coordinate. -/
theorem c6_flood_fill_visits_witness :
    validCoord [[(0 : Nat)]] 0 0 ∧
      ((∃ R, flood_fill [[(0 : Nat)]] 0 0 = some R) ∧
        ∃ pr, flood_fill_processed [[(0 : Nat)]] 0 0 = some pr ∧ pr.Nodup ∧
          pr.length ≤ totalCells [[(0 : Nat)]]) :=
  ⟨by decide, c6_flood_fill_visits Nat [[(0 : Nat)]] 0 0 (by decide)⟩

/-- C7: the region `flood_fill` returns does not depend on which coordinate
of the region the fill starts from: if `q` lies in the equal-valued
4-connected region of `p` (is reachable from `p` through cells equal to
`p`'s value), the two flood fills agree. -/
theorem c7_flood_fill_start_choice (α : Type) [DecidableEq α]
    (plane : List (List α)) (p q : Nat × Nat) (t : α)
    (hp : cellAt? plane p.1 p.2 = some t)
    (hq : Relation.ReflTransGen (floodStep plane t) p q) :
    flood_fill plane p.1 p.2 = flood_fill plane q.1 q.2 :=
  flood_fill_start_irrelevant plane p q t hp hq

/-- Witness for C7 with `p = (0,0)`, `q = (0,1)` in the one-region grid
`[[0, 0]]`. -/
theorem c7_flood_fill_start_choice_witness :
    cellAt? [[(0 : Nat), 0]] 0 0 = some 0 ∧
      flood_fill [[(0 : Nat), 0]] 0 0 = flood_fill [[(0 : Nat), 0]] 0 1 :=
  ⟨by decide,
    c7_flood_fill_start_choice Nat [[(0 : Nat), 0]] (0, 0) (0, 1) 0 (by decide)
      (Relation.ReflTransGen.single ⟨⟨Direction.E, by decide, by decide⟩, by decide⟩)⟩
